import Mathlib

/-!
Verification of the `orderedmap` Go package (v4).

The container `OrderedMap[K, V]` holds a hash map `kv : map[K]V` together
with a pointer `ll *[]K` to a slice of keys recording insertion order.

Embedding choices:
* the Go hash map is modelled as an association list with unique keys,
  accessed only through `mapLookup` / `mapInsert` / `mapErase`, which mirror
  `m.kv[key]`, `m.kv[key] = value` and `delete(m.kv, key)`;
* the order slice is a `List K`; `slices.Index` / `slices.IndexFunc` are
  modelled by `indexOfKey` (first index, `none` for Go's `-1`);
* `Delete` and `ReplaceKey` return `Option`: `none` is the panic that Go
  would raise when the linear scan returns `-1` and the subsequent slice
  access goes out of bounds;
* Go's `iter.Seq`/`iter.Seq2` push iterators are modelled by `pushLoop`,
  which feeds elements to a stateful `yield` until it signals stop;
* aliasing of the internal buffers (for `Copy` independence) is modelled
  by a small heap of map cells addressed by indices (`MapHeap`).
-/

namespace orderedmap

variable {K V : Type} [DecidableEq K]

/-- Model of Go map lookup `value, ok := kv[key]`: the first binding wins
(association lists built by `mapInsert` have unique keys). -/
def mapLookup (kv : List (K × V)) (k : K) : Option V :=
  match kv with
  | [] => none
  | (k', v') :: rest => if k' = k then some v' else mapLookup rest k

/-- Model of Go map assignment `kv[key] = value`: replace the binding in
place if the key is present, otherwise add a binding. -/
def mapInsert (kv : List (K × V)) (k : K) (v : V) : List (K × V) :=
  match kv with
  | [] => [(k, v)]
  | (k', v') :: rest => if k' = k then (k, v) :: rest else (k', v') :: mapInsert rest k v

/-- Model of Go `delete(kv, key)`: drop the binding for `key`. -/
def mapErase (kv : List (K × V)) (k : K) : List (K × V) :=
  match kv with
  | [] => []
  | (k', v') :: rest => if k' = k then rest else (k', v') :: mapErase rest k

/-- The keys of the store, in representation order. -/
def storeKeys (kv : List (K × V)) : List K := kv.map Prod.fst

/-- Model of Go `slices.Index(ll, k)` and of the `slices.IndexFunc` call in
`ReplaceKey` (whose predicate is `key == originalKey`): index of the first
occurrence, `none` standing for Go's `-1`. -/
def indexOfKey (ll : List K) (k : K) : Option Nat :=
  match ll with
  | [] => none
  | x :: rest => if x = k then some 0 else (indexOfKey rest k).map (· + 1)

/-- `type OrderedMap[K comparable, V any] struct { kv map[K]V; ll *[]K }` -/
structure OrderedMap (K V : Type) where
  kv : List (K × V)
  ll : List K

/-- `MakeOrderedMap` / `NewOrderedMap`: the empty map. -/
def MakeOrderedMap : OrderedMap K V := ⟨[], []⟩

/-- `Get` returns the value for a key; Go's `(zeroValue, false)` on a missing
key is modelled as `none`. -/
def Get (m : OrderedMap K V) (key : K) : Option V :=
  mapLookup m.kv key

/-- `Has` checks if a key exists in the map. -/
def Has (m : OrderedMap K V) (key : K) : Bool :=
  (mapLookup m.kv key).isSome

/-- `Len` returns the number of elements in the map (`len(*m.ll)`). -/
def Len (m : OrderedMap K V) : Nat :=
  m.ll.length

/-- `Set` sets (or replaces) a value for a key, returning the updated map
together with the Go return value (`true` iff the key was new). -/
def Set (m : OrderedMap K V) (key : K) (value : V) : OrderedMap K V × Bool :=
  let alreadyExist := (mapLookup m.kv key).isSome
  let kv' := mapInsert m.kv key value
  if alreadyExist then (⟨kv', m.ll⟩, false)
  else (⟨kv', m.ll ++ [key]⟩, true)

/-- `ReplaceKey` replaces an existing key with a new key, preserving the
position of the value in the order slice. `none` models the panic of the
slice write `(*m.ll)[lli] = newKey` when the linear scan returns `-1`. -/
def ReplaceKey (m : OrderedMap K V) (originalKey newKey : K) :
    Option (OrderedMap K V × Bool) :=
  match mapLookup m.kv originalKey, (mapLookup m.kv newKey).isSome with
  | some element, false =>
    match indexOfKey m.ll originalKey with
    | some lli =>
      some (⟨mapInsert (mapErase m.kv originalKey) newKey element,
             m.ll.set lli newKey⟩, true)
    | none => none
  | _, _ => some (m, false)

/-- `Delete` removes a key from the map, returning whether the key existed.
`none` models the panic of `slices.Delete(*m.ll, lli, lli+1)` when the
linear scan returns `-1`. -/
def Delete (m : OrderedMap K V) (key : K) : Option (OrderedMap K V × Bool) :=
  match mapLookup m.kv key with
  | some _ =>
    match indexOfKey m.ll key with
    | some lli => some (⟨mapErase m.kv key, m.ll.eraseIdx lli⟩, true)
    | none => none
  | none => some (m, false)

/-- Model of a Go push iterator body: feed the elements of `l` to `yield`
(threading consumer state `σ`) until `yield` returns `false` or the list
is exhausted. -/
def pushLoop {α σ : Type} (l : List α) (yield : σ → α → σ × Bool) (s : σ) : σ :=
  match l with
  | [] => s
  | a :: rest =>
    let r := yield s a
    if r.2 then pushLoop rest yield r.1 else r.1

/-- `AllFromFront` applied to a consumer: for each key of `*m.ll` from the
front, yield `(key, m.kv[key])`. -/
def AllFromFront {σ : Type} (m : OrderedMap K V)
    (yield : σ → K → Option V → σ × Bool) (s : σ) : σ :=
  pushLoop m.ll (fun s key => yield s key (mapLookup m.kv key)) s

/-- `All` returns `m.AllFromFront()`. -/
def All {σ : Type} (m : OrderedMap K V)
    (yield : σ → K → Option V → σ × Bool) (s : σ) : σ :=
  AllFromFront m yield s

/-- `AllFromBack` applied to a consumer: iterate `slices.Backward(*m.ll)`. -/
def AllFromBack {σ : Type} (m : OrderedMap K V)
    (yield : σ → K → Option V → σ × Bool) (s : σ) : σ :=
  pushLoop m.ll.reverse (fun s key => yield s key (mapLookup m.kv key)) s

/-- `Keys` applied to a consumer: yield each key of `*m.ll` from the front. -/
def Keys {σ : Type} (m : OrderedMap K V) (yield : σ → K → σ × Bool) (s : σ) : σ :=
  pushLoop m.ll yield s

/-- `Values` applied to a consumer: yield `m.kv[key]` for each key of
`*m.ll` from the front. -/
def Values {σ : Type} (m : OrderedMap K V)
    (yield : σ → Option V → σ × Bool) (s : σ) : σ :=
  pushLoop m.ll (fun s key => yield s (mapLookup m.kv key)) s

/-- The full sequence of pairs produced by `AllFromFront` (consumer that
always continues and accumulates). -/
def collectFront (m : OrderedMap K V) : List (K × Option V) :=
  AllFromFront m (fun s k v => (s ++ [(k, v)], true)) []

/-- The full sequence of pairs produced by `AllFromBack`. -/
def collectBack (m : OrderedMap K V) : List (K × Option V) :=
  AllFromBack m (fun s k v => (s ++ [(k, v)], true)) []

/-- The full sequence of pairs produced by `All`. -/
def collectAll (m : OrderedMap K V) : List (K × Option V) :=
  All m (fun s k v => (s ++ [(k, v)], true)) []

/-- `setPairs m ps` performs `Set` for each pair of `ps` in order (the loop
bodies of `NewOrderedMapWithElements` and `Copy`). -/
def setPairs (m : OrderedMap K V) (ps : List (K × V)) : OrderedMap K V :=
  ps.foldl (fun acc p => (Set acc p.1 p.2).1) m

/-- `Copy` returns a new OrderedMap with the same elements, built by calling
`m2.Set(key, m.kv[key])` for each key of `*m.ll` from the front into a fresh
map. `m.kv[key]` on a missing key is Go's zero value, modelled by `default`. -/
def Copy [Inhabited V] (m : OrderedMap K V) : OrderedMap K V :=
  setPairs MakeOrderedMap (m.ll.map (fun key => (key, (mapLookup m.kv key).getD default)))

/-- `AppendMultiMap` appends `value` to the sequence stored under `key`,
returning the resulting map. -/
def AppendMultiMap (m : OrderedMap K (List V)) (key : K) (value : V) :
    OrderedMap K (List V) :=
  match Get m key with
  | some a => (Set m key (a ++ [value])).1
  | none => (Set m key [value]).1

/-- One mutating operation, for reachability statements. -/
inductive Op (K V : Type) where
  | set (k : K) (v : V)
  | del (k : K)
  | rep (old new : K)

/-- Apply one operation; `none` propagates a panic from `Delete`/`ReplaceKey`. -/
def applyOp (m : OrderedMap K V) : Op K V → Option (OrderedMap K V)
  | .set k v => some (Set m k v).1
  | .del k => (Delete m k).map Prod.fst
  | .rep a b => (ReplaceKey m a b).map Prod.fst

/-- Run a sequence of operations from `m`. -/
def runOps (m : OrderedMap K V) : List (Op K V) → Option (OrderedMap K V)
  | [] => some m
  | op :: rest =>
    match applyOp m op with
    | some m' => runOps m' rest
    | none => none

/-- The invariant tying the store and the order slice together: no duplicate
keys on either side, the same key set on both sides, and equal sizes. -/
def Inv (m : OrderedMap K V) : Prop :=
  m.ll.Nodup ∧ (storeKeys m.kv).Nodup ∧
  (∀ k ∈ m.ll, (mapLookup m.kv k).isSome = true) ∧
  (∀ p ∈ m.kv, p.1 ∈ m.ll) ∧
  m.ll.length = m.kv.length

instance instDecidableInv (m : OrderedMap K V) : Decidable (Inv m) := by
  unfold Inv
  infer_instance

/-- Remove the first occurrence of `k` (specification-side view of erasing
at the index found by the linear scan). -/
def eraseFirst (ll : List K) (k : K) : List K :=
  match ll with
  | [] => []
  | x :: rest => if x = k then rest else x :: eraseFirst rest k

/-- Overwrite the first occurrence of `k` with `k'` (specification-side view
of the in-place slot rewrite of `ReplaceKey`). -/
def replaceFirst (ll : List K) (k k' : K) : List K :=
  match ll with
  | [] => []
  | x :: rest => if x = k then k' :: rest else x :: replaceFirst rest k k'

/-- A heap of map cells: Go's `kv` (a map) and `ll` (a slice pointer) are
reference types, and every constructor of the package allocates both fresh,
so one cell per map handle models the aliasing structure. -/
structure MapHeap (K V : Type) where
  cells : List (OrderedMap K V)

/-- Allocate a fresh cell, returning the new heap and the handle. -/
def alloc (h : MapHeap K V) (m : OrderedMap K V) : MapHeap K V × Nat :=
  (⟨h.cells ++ [m]⟩, h.cells.length)

/-- Read the map a handle refers to. -/
def readH (h : MapHeap K V) (r : Nat) : OrderedMap K V :=
  (h.cells[r]?).getD MakeOrderedMap

/-- `Set` through a handle: mutates the referenced cell in place. -/
def hSet (h : MapHeap K V) (r : Nat) (key : K) (value : V) : MapHeap K V × Bool :=
  let res := Set (readH h r) key value
  (⟨h.cells.set r res.1⟩, res.2)

/-- `Delete` through a handle: mutates the referenced cell in place. -/
def hDelete (h : MapHeap K V) (r : Nat) (key : K) : Option (MapHeap K V × Bool) :=
  (Delete (readH h r) key).map (fun res => (⟨h.cells.set r res.1⟩, res.2))

/-- `ReplaceKey` through a handle: mutates the referenced cell in place. -/
def hReplaceKey (h : MapHeap K V) (r : Nat) (oldK newK : K) :
    Option (MapHeap K V × Bool) :=
  (ReplaceKey (readH h r) oldK newK).map
    (fun res => (⟨h.cells.set r res.1⟩, res.2))

/-- `Copy` through a handle: builds the copy and allocates a fresh cell for
it, as `NewOrderedMapWithCapacity` allocates a fresh map and slice. -/
def hCopy [Inhabited V] (h : MapHeap K V) (r : Nat) : MapHeap K V × Nat :=
  alloc h (Copy (readH h r))

/-- The trace of an arbitrary consumer under the push-iterator protocol:
one entry per invocation of `yield`, recording the element it was handed
and the continue-flag it returned; the loop stops at the first `false`. -/
def runTrace {α σ : Type} (yield : σ → α → σ × Bool) : List α → σ → List (α × Bool)
  | [], _ => []
  | a :: rest, s =>
    let r := yield s a
    if r.2 then (a, true) :: runTrace yield rest r.1 else [(a, false)]

/-- The loop body of `AllFromFront`/`AllFromBack` applied to a consumer:
one invocation per key, handing over `(key, m.kv[key])`. -/
def frontYield {σ : Type} (m : OrderedMap K V)
    (yield : σ → K → Option V → σ × Bool) : σ → K → σ × Bool :=
  fun s key => yield s key (mapLookup m.kv key)

/-- The loop body of `Values` applied to a consumer: one invocation per
key, handing over `m.kv[key]`. -/
def valuesYield {σ : Type} (m : OrderedMap K V)
    (yield : σ → Option V → σ × Bool) : σ → K → σ × Bool :=
  fun s key => yield s (mapLookup m.kv key)

/-- A consumer for `AllFromFront`/`AllFromBack`/`All` that records every pair
it is handed, counts its own invocations, and signals stop as it returns
from its `i`-th invocation. -/
def countTake2 (i : Nat) (s : List (K × Option V) × Nat) (k : K) (v : Option V) :
    (List (K × Option V) × Nat) × Bool :=
  ((s.1 ++ [(k, v)], s.2 + 1), decide (s.2 + 1 < i))

/-- The analogous consumer for the single-projection iterators `Keys` and
`Values`. -/
def countTake1 {α : Type} (i : Nat) (s : List α × Nat) (a : α) :
    (List α × Nat) × Bool :=
  ((s.1 ++ [a], s.2 + 1), decide (s.2 + 1 < i))

/-- A small concrete map used to instantiate theorems with hypotheses. -/
def sampleMap : OrderedMap Nat Nat :=
  (Set (Set (MakeOrderedMap : OrderedMap Nat Nat) 0 10).1 1 11).1

/-- A one-cell heap holding `sampleMap`. -/
def heapSample : MapHeap Nat Nat := ⟨[sampleMap]⟩

/-! ### Lemmas about the Go-map model -/

theorem mapLookup_insert (kv : List (K × V)) (k q : K) (v : V) :
    mapLookup (mapInsert kv k v) q = if k = q then some v else mapLookup kv q := by
  induction kv with
  | nil => simp [mapInsert, mapLookup]
  | cons p rest ih =>
    obtain ⟨a, b⟩ := p
    by_cases h1 : a = k <;> by_cases h2 : k = q <;>
      simp_all [mapInsert, mapLookup]

theorem mapLookup_isSome_iff (kv : List (K × V)) (k : K) :
    (mapLookup kv k).isSome = true ↔ k ∈ storeKeys kv := by
  induction kv with
  | nil => simp [mapLookup, storeKeys]
  | cons p rest ih =>
    obtain ⟨a, b⟩ := p
    by_cases h : a = k
    · subst h; simp [mapLookup, storeKeys]
    · simp [mapLookup, storeKeys, h, ih, Ne.symm h]

theorem mapLookup_eq_none_of_not_mem (kv : List (K × V)) (k : K)
    (h : k ∉ storeKeys kv) : mapLookup kv k = none := by
  cases hm : mapLookup kv k with
  | none => rfl
  | some v => exact absurd ((mapLookup_isSome_iff kv k).1 (by simp [hm])) h

theorem mapErase_lookup_ne (kv : List (K × V)) (k q : K) (h : q ≠ k) :
    mapLookup (mapErase kv k) q = mapLookup kv q := by
  induction kv with
  | nil => simp [mapErase]
  | cons p rest ih =>
    obtain ⟨a, b⟩ := p
    by_cases h1 : a = k <;> by_cases h2 : a = q <;>
      simp_all [mapErase, mapLookup]

theorem mapErase_lookup_self (kv : List (K × V)) (k : K)
    (h : (storeKeys kv).Nodup) : mapLookup (mapErase kv k) k = none := by
  induction kv with
  | nil => simp [mapErase, mapLookup]
  | cons p rest ih =>
    obtain ⟨a, b⟩ := p
    simp only [storeKeys, List.map_cons, List.nodup_cons] at h
    by_cases h1 : a = k
    · subst h1
      simpa [mapErase] using mapLookup_eq_none_of_not_mem rest a h.1
    · simpa [mapErase, h1, mapLookup] using ih h.2

theorem storeKeys_insert (kv : List (K × V)) (k : K) (v : V) :
    storeKeys (mapInsert kv k v) =
      if (mapLookup kv k).isSome = true then storeKeys kv else storeKeys kv ++ [k] := by
  induction kv with
  | nil => simp [mapInsert, mapLookup, storeKeys]
  | cons p rest ih =>
    obtain ⟨a, b⟩ := p
    by_cases h1 : a = k
    · subst h1; simp [mapInsert, mapLookup, storeKeys]
    · by_cases h2 : (mapLookup rest k).isSome = true <;>
        simp_all [mapInsert, mapLookup, storeKeys]

theorem storeKeys_erase (kv : List (K × V)) (k : K) :
    storeKeys (mapErase kv k) = eraseFirst (storeKeys kv) k := by
  induction kv with
  | nil => rfl
  | cons p rest ih =>
    obtain ⟨a, b⟩ := p
    by_cases h1 : a = k <;> simp_all [mapErase, eraseFirst, storeKeys]

theorem length_mapInsert (kv : List (K × V)) (k : K) (v : V) :
    (mapInsert kv k v).length =
      if (mapLookup kv k).isSome = true then kv.length else kv.length + 1 := by
  induction kv with
  | nil => simp [mapInsert, mapLookup]
  | cons p rest ih =>
    obtain ⟨a, b⟩ := p
    by_cases h1 : a = k
    · subst h1; simp [mapInsert, mapLookup]
    · by_cases h2 : (mapLookup rest k).isSome = true <;>
        simp_all [mapInsert, mapLookup]

theorem mapErase_of_lookup_none (kv : List (K × V)) (k : K)
    (h : mapLookup kv k = none) : mapErase kv k = kv := by
  induction kv with
  | nil => rfl
  | cons p rest ih =>
    obtain ⟨a, b⟩ := p
    by_cases h1 : a = k <;> simp_all [mapErase, mapLookup]

theorem length_mapErase_of_isSome (kv : List (K × V)) (k : K)
    (h : (mapLookup kv k).isSome = true) :
    (mapErase kv k).length + 1 = kv.length := by
  induction kv with
  | nil => simp [mapLookup] at h
  | cons p rest ih =>
    obtain ⟨a, b⟩ := p
    by_cases h1 : a = k <;> simp_all [mapErase, mapLookup]

/-! ### Lemmas about the order-slice operations -/

theorem eraseFirst_sublist (ll : List K) (k : K) : (eraseFirst ll k).Sublist ll := by
  induction ll with
  | nil => simp [eraseFirst]
  | cons x rest ih =>
    by_cases h : x = k
    · rw [eraseFirst, if_pos h]
      exact List.Sublist.cons x (List.Sublist.refl rest)
    · rw [eraseFirst, if_neg h]
      exact List.Sublist.cons₂ x ih

theorem eraseFirst_nodup (ll : List K) (k : K) (h : ll.Nodup) :
    (eraseFirst ll k).Nodup :=
  List.Nodup.sublist (eraseFirst_sublist ll k) h

theorem not_mem_eraseFirst_self (ll : List K) (k : K) (h : ll.Nodup) :
    k ∉ eraseFirst ll k := by
  induction ll with
  | nil => simp [eraseFirst]
  | cons x rest ih =>
    simp only [List.nodup_cons] at h
    by_cases h1 : x = k
    · subst h1; simpa [eraseFirst] using h.1
    · simpa [eraseFirst, h1, Ne.symm h1] using ih h.2

theorem mem_eraseFirst_of_ne (ll : List K) (k q : K) (h : q ≠ k) :
    q ∈ eraseFirst ll k ↔ q ∈ ll := by
  induction ll with
  | nil => simp [eraseFirst]
  | cons x rest ih =>
    by_cases h1 : x = k
    · subst h1; simp [eraseFirst, h]
    · simp [eraseFirst, h1, ih]

theorem length_eraseFirst (ll : List K) (k : K) (h : k ∈ ll) :
    (eraseFirst ll k).length + 1 = ll.length := by
  induction ll with
  | nil => simp at h
  | cons x rest ih =>
    by_cases h1 : x = k
    · simp [eraseFirst, h1]
    · have hr : k ∈ rest := by
        rcases List.mem_cons.1 h with h2 | h2
        · exact absurd h2.symm h1
        · exact h2
      simp [eraseFirst, h1, ih hr]

theorem eraseFirst_eq_filter (ll : List K) (k : K) (h : ll.Nodup) :
    eraseFirst ll k = ll.filter (fun x => !decide (x = k)) := by
  induction ll with
  | nil => rfl
  | cons x rest ih =>
    simp only [List.nodup_cons] at h
    by_cases h1 : x = k
    · subst h1
      have hf : rest.filter (fun y => !decide (y = x)) = rest :=
        List.filter_eq_self.2 (fun a ha => by
          simp only [Bool.not_eq_true', decide_eq_false_iff_not]
          exact fun hax => h.1 (hax ▸ ha))
      simp [eraseFirst, List.filter_cons, hf]
    · simp [eraseFirst, h1, List.filter_cons, ih h.2]

theorem length_replaceFirst (ll : List K) (k q : K) :
    (replaceFirst ll k q).length = ll.length := by
  induction ll with
  | nil => rfl
  | cons x rest ih =>
    by_cases h : x = k <;> simp [replaceFirst, h, ih]

theorem map_if_not_mem (ll : List K) (k q : K) (h : k ∉ ll) :
    ll.map (fun x => if x = k then q else x) = ll := by
  induction ll with
  | nil => rfl
  | cons x rest ih =>
    simp only [List.mem_cons] at h
    push_neg at h
    simp [Ne.symm h.1, ih h.2]

theorem replaceFirst_eq_map (ll : List K) (k q : K) (h : ll.Nodup) :
    replaceFirst ll k q = ll.map (fun x => if x = k then q else x) := by
  induction ll with
  | nil => rfl
  | cons x rest ih =>
    simp only [List.nodup_cons] at h
    by_cases h1 : x = k
    · subst h1
      simp [replaceFirst, map_if_not_mem rest x q h.1]
    · simp [replaceFirst, h1, ih h.2]

theorem mem_of_mem_replaceFirst (ll : List K) (k q a : K)
    (h : a ∈ replaceFirst ll k q) : a ∈ ll ∨ a = q := by
  induction ll with
  | nil => simp [replaceFirst] at h
  | cons x rest ih =>
    by_cases h1 : x = k
    · rw [replaceFirst, if_pos h1] at h
      rcases List.mem_cons.1 h with rfl | h2
      · exact Or.inr rfl
      · exact Or.inl (List.mem_cons_of_mem x h2)
    · rw [replaceFirst, if_neg h1] at h
      rcases List.mem_cons.1 h with rfl | h2
      · exact Or.inl (List.mem_cons_self a rest)
      · rcases ih h2 with h3 | h3
        · exact Or.inl (List.mem_cons_of_mem x h3)
        · exact Or.inr h3

theorem replaceFirst_nodup (ll : List K) (k q : K) :
    ll.Nodup → q ∉ ll → (replaceFirst ll k q).Nodup := by
  induction ll with
  | nil => intro _ _; simp [replaceFirst]
  | cons x rest ih =>
    intro hn hq
    simp only [List.nodup_cons] at hn
    have hq' : q ∉ rest := fun hmem => hq (List.mem_cons_of_mem x hmem)
    by_cases h1 : x = k
    · rw [replaceFirst, if_pos h1]
      exact List.nodup_cons.2 ⟨hq', hn.2⟩
    · rw [replaceFirst, if_neg h1]
      refine List.nodup_cons.2 ⟨?_, ih hn.2 hq'⟩
      intro hmem
      rcases mem_of_mem_replaceFirst rest k q x hmem with h3 | h3
      · exact hn.1 h3
      · exact hq (h3 ▸ List.mem_cons_self x rest)

theorem mem_replaceFirst_iff (ll : List K) (k q a : K) :
    ll.Nodup → k ∈ ll → q ∉ ll →
    (a ∈ replaceFirst ll k q ↔ (a ∈ ll ∧ a ≠ k) ∨ a = q) := by
  induction ll with
  | nil => intro _ hk _; simp at hk
  | cons x rest ih =>
    intro hn hk hq
    simp only [List.nodup_cons] at hn
    by_cases h1 : x = k
    · subst h1
      rw [replaceFirst, if_pos rfl]
      simp only [List.mem_cons]
      constructor
      · rintro (rfl | ha)
        · exact Or.inr rfl
        · exact Or.inl ⟨Or.inr ha, fun hax => hn.1 (hax ▸ ha)⟩
      · rintro (⟨hax | ha, hne⟩ | rfl)
        · exact absurd hax hne
        · exact Or.inr ha
        · exact Or.inl rfl
    · have hk' : k ∈ rest := by
        rcases List.mem_cons.1 hk with h2 | h2
        · exact absurd h2.symm h1
        · exact h2
      have hq' : q ∉ rest := fun hmem => hq (List.mem_cons_of_mem x hmem)
      rw [replaceFirst, if_neg h1]
      simp only [List.mem_cons, ih hn.2 hk' hq']
      constructor
      · rintro (rfl | ⟨ha, hne⟩ | rfl)
        · exact Or.inl ⟨Or.inl rfl, h1⟩
        · exact Or.inl ⟨Or.inr ha, hne⟩
        · exact Or.inr rfl
      · rintro (⟨hax | ha, hne⟩ | rfl)
        · exact Or.inl hax
        · exact Or.inr (Or.inl ⟨ha, hne⟩)
        · exact Or.inr (Or.inr rfl)

/-! ### Lemmas about the linear index scan -/

theorem indexOfKey_isSome_iff (ll : List K) (k : K) :
    (indexOfKey ll k).isSome = true ↔ k ∈ ll := by
  induction ll with
  | nil => simp [indexOfKey]
  | cons x rest ih =>
    by_cases h : x = k
    · subst h; simp [indexOfKey]
    · simp only [indexOfKey, if_neg h, List.mem_cons]
      cases hr : indexOfKey rest k <;> simp_all [Ne.symm h]

theorem indexOfKey_lt (ll : List K) (k : K) (i : Nat)
    (h : indexOfKey ll k = some i) : i < ll.length := by
  induction ll generalizing i with
  | nil => simp [indexOfKey] at h
  | cons x rest ih =>
    by_cases h1 : x = k
    · rw [indexOfKey, if_pos h1] at h
      simp only [Option.some.injEq] at h
      subst h
      simp
    · rw [indexOfKey, if_neg h1] at h
      cases hr : indexOfKey rest k with
      | none => rw [hr] at h; simp at h
      | some j =>
        rw [hr] at h
        simp only [Option.map_some', Option.some.injEq] at h
        subst h
        simpa using ih j hr

theorem eraseIdx_indexOfKey (ll : List K) (k : K) (i : Nat)
    (h : indexOfKey ll k = some i) : ll.eraseIdx i = eraseFirst ll k := by
  induction ll generalizing i with
  | nil => simp [indexOfKey] at h
  | cons x rest ih =>
    by_cases h1 : x = k
    · rw [indexOfKey, if_pos h1] at h
      simp only [Option.some.injEq] at h
      subst h
      simp [eraseFirst, h1]
    · rw [indexOfKey, if_neg h1] at h
      cases hr : indexOfKey rest k with
      | none => rw [hr] at h; simp at h
      | some j =>
        rw [hr] at h
        simp only [Option.map_some', Option.some.injEq] at h
        subst h
        simp [List.eraseIdx_cons_succ, eraseFirst, h1, ih j hr]

theorem set_indexOfKey (ll : List K) (k q : K) (i : Nat)
    (h : indexOfKey ll k = some i) : ll.set i q = replaceFirst ll k q := by
  induction ll generalizing i with
  | nil => simp [indexOfKey] at h
  | cons x rest ih =>
    by_cases h1 : x = k
    · rw [indexOfKey, if_pos h1] at h
      simp only [Option.some.injEq] at h
      subst h
      simp [replaceFirst, h1]
    · rw [indexOfKey, if_neg h1] at h
      cases hr : indexOfKey rest k with
      | none => rw [hr] at h; simp at h
      | some j =>
        rw [hr] at h
        simp only [Option.map_some', Option.some.injEq] at h
        subst h
        simp [List.set_cons_succ, replaceFirst, h1, ih j hr]

/-! ### Shapes of the mutating operations -/

theorem Set_eq_of_absent (m : OrderedMap K V) (k : K) (v : V)
    (h : mapLookup m.kv k = none) :
    Set m k v = (⟨mapInsert m.kv k v, m.ll ++ [k]⟩, true) := by
  simp [Set, h]

theorem Set_eq_of_present (m : OrderedMap K V) (k : K) (v : V)
    (h : (mapLookup m.kv k).isSome = true) :
    Set m k v = (⟨mapInsert m.kv k v, m.ll⟩, false) := by
  simp [Set, h]

theorem Delete_eq_of_absent (m : OrderedMap K V) (k : K)
    (h : mapLookup m.kv k = none) : Delete m k = some (m, false) := by
  unfold Delete
  rw [h]

theorem Delete_eq_of_present (m : OrderedMap K V) (k : K)
    (h : (mapLookup m.kv k).isSome = true) (hmem : k ∈ m.ll) :
    Delete m k = some (⟨mapErase m.kv k, eraseFirst m.ll k⟩, true) := by
  obtain ⟨v, hv⟩ := Option.isSome_iff_exists.1 h
  obtain ⟨i, hi⟩ :=
    Option.isSome_iff_exists.1 ((indexOfKey_isSome_iff m.ll k).2 hmem)
  have he : m.ll.eraseIdx i = eraseFirst m.ll k := eraseIdx_indexOfKey m.ll k i hi
  unfold Delete
  rw [hv, hi, ← he]

theorem ReplaceKey_eq_of_fail (m : OrderedMap K V) (oldK newK : K)
    (h : mapLookup m.kv oldK = none ∨ (mapLookup m.kv newK).isSome = true) :
    ReplaceKey m oldK newK = some (m, false) := by
  unfold ReplaceKey
  rcases h with h | h
  · cases hb : (mapLookup m.kv newK).isSome <;> rw [h]
  · cases ho : mapLookup m.kv oldK <;> rw [h]

theorem ReplaceKey_eq_of_success (m : OrderedMap K V) (oldK newK : K) (v : V)
    (hold : mapLookup m.kv oldK = some v)
    (hnew : (mapLookup m.kv newK).isSome = false)
    (hmem : oldK ∈ m.ll) :
    ReplaceKey m oldK newK =
      some (⟨mapInsert (mapErase m.kv oldK) newK v,
             replaceFirst m.ll oldK newK⟩, true) := by
  obtain ⟨i, hi⟩ :=
    Option.isSome_iff_exists.1 ((indexOfKey_isSome_iff m.ll oldK).2 hmem)
  have he : m.ll.set i newK = replaceFirst m.ll oldK newK :=
    set_indexOfKey m.ll oldK newK i hi
  unfold ReplaceKey
  rw [hold, hnew, hi, ← he]

/-! ### The invariant and its preservation -/

theorem Inv.mem_ll_iff {m : OrderedMap K V} (h : Inv m) (k : K) :
    k ∈ m.ll ↔ (mapLookup m.kv k).isSome = true := by
  constructor
  · exact h.2.2.1 k
  · intro hs
    obtain ⟨p, hp, hpk⟩ := List.mem_map.1 ((mapLookup_isSome_iff m.kv k).1 hs)
    exact hpk ▸ h.2.2.2.1 p hp

theorem Inv.lookup_none_of_not_mem_ll {m : OrderedMap K V} (h : Inv m) (k : K)
    (hk : k ∉ m.ll) : mapLookup m.kv k = none := by
  cases hm : mapLookup m.kv k with
  | none => rfl
  | some v => exact absurd ((Inv.mem_ll_iff h k).2 (by simp [hm])) hk

theorem Inv_Make : Inv (MakeOrderedMap : OrderedMap K V) := by
  refine ⟨List.nodup_nil, List.nodup_nil, ?_, ?_, rfl⟩ <;> simp [MakeOrderedMap]

theorem Inv_Set {m : OrderedMap K V} (h : Inv m) (k : K) (v : V) :
    Inv (Set m k v).1 := by
  by_cases hs : (mapLookup m.kv k).isSome = true
  · rw [Set_eq_of_present m k v hs]
    refine ⟨h.1, ?_, ?_, ?_, ?_⟩
    · rw [storeKeys_insert, if_pos hs]
      exact h.2.1
    · intro k' hk'
      rw [mapLookup_insert]
      by_cases hkk : k = k'
      · simp [hkk]
      · simpa [hkk] using h.2.2.1 k' hk'
    · intro p hp
      have hp1 : p.1 ∈ storeKeys (mapInsert m.kv k v) :=
        List.mem_map_of_mem Prod.fst hp
      rw [storeKeys_insert, if_pos hs] at hp1
      obtain ⟨p', hp', he⟩ := List.mem_map.1 hp1
      exact he ▸ h.2.2.2.1 p' hp'
    · rw [length_mapInsert, if_pos hs]
      exact h.2.2.2.2
  · have hnone : mapLookup m.kv k = none := by
      cases hm : mapLookup m.kv k with
      | none => rfl
      | some w => rw [hm] at hs; simp at hs
    have hknotll : k ∉ m.ll := fun hmem => by
      have h1 := h.2.2.1 k hmem
      rw [hnone] at h1
      simp at h1
    have hknotkeys : k ∉ storeKeys m.kv := fun hmem => by
      have h1 := (mapLookup_isSome_iff m.kv k).2 hmem
      rw [hnone] at h1
      simp at h1
    rw [Set_eq_of_absent m k v hnone]
    refine ⟨?_, ?_, ?_, ?_, ?_⟩
    · rw [List.nodup_append]
      exact ⟨h.1, List.nodup_singleton k,
        fun a ha hb => hknotll ((List.mem_singleton.1 hb) ▸ ha)⟩
    · rw [storeKeys_insert, hnone]
      simp only [Option.isSome_none, Bool.false_eq_true, if_false]
      rw [List.nodup_append]
      exact ⟨h.2.1, List.nodup_singleton k,
        fun a ha hb => hknotkeys ((List.mem_singleton.1 hb) ▸ ha)⟩
    · intro k' hk'
      rw [mapLookup_insert]
      rcases List.mem_append.1 hk' with hk' | hk'
      · by_cases hkk : k = k'
        · simp [hkk]
        · simpa [hkk] using h.2.2.1 k' hk'
      · simp [(List.mem_singleton.1 hk').symm]
    · intro p hp
      have hp1 : p.1 ∈ storeKeys (mapInsert m.kv k v) :=
        List.mem_map_of_mem Prod.fst hp
      rw [storeKeys_insert, hnone] at hp1
      simp only [Option.isSome_none, Bool.false_eq_true, if_false] at hp1
      rcases List.mem_append.1 hp1 with hp1 | hp1
      · obtain ⟨p', hp', he⟩ := List.mem_map.1 hp1
        exact List.mem_append_left _ (he ▸ h.2.2.2.1 p' hp')
      · exact List.mem_append_right _ hp1
    · rw [length_mapInsert, hnone]
      simp only [Option.isSome_none, Bool.false_eq_true, if_false,
        List.length_append, List.length_singleton]
      have := h.2.2.2.2
      omega

theorem Inv_Delete {m : OrderedMap K V} (h : Inv m) (k : K)
    {m' : OrderedMap K V} {b : Bool}
    (hd : Delete m k = some (m', b)) : Inv m' := by
  by_cases hs : (mapLookup m.kv k).isSome = true
  · have hmem : k ∈ m.ll := (Inv.mem_ll_iff h k).2 hs
    rw [Delete_eq_of_present m k hs hmem] at hd
    simp only [Option.some.injEq, Prod.mk.injEq] at hd
    obtain ⟨hm', -⟩ := hd
    subst hm'
    refine ⟨eraseFirst_nodup m.ll k h.1, ?_, ?_, ?_, ?_⟩
    · rw [storeKeys_erase]
      exact eraseFirst_nodup _ k h.2.1
    · intro k' hk'
      have hne : k' ≠ k := fun he => not_mem_eraseFirst_self m.ll k h.1 (he ▸ hk')
      have hll : k' ∈ m.ll := (eraseFirst_sublist m.ll k).subset hk'
      rw [mapErase_lookup_ne m.kv k k' hne]
      exact h.2.2.1 k' hll
    · intro p hp
      have hp1 : p.1 ∈ storeKeys (mapErase m.kv k) :=
        List.mem_map_of_mem Prod.fst hp
      rw [storeKeys_erase] at hp1
      have hne : p.1 ≠ k := fun he =>
        not_mem_eraseFirst_self _ k h.2.1 (he ▸ hp1)
      have hkeys : p.1 ∈ storeKeys m.kv :=
        (eraseFirst_sublist _ k).subset hp1
      obtain ⟨p', hp', he⟩ := List.mem_map.1 hkeys
      have hll : p.1 ∈ m.ll := he ▸ h.2.2.2.1 p' hp'
      exact (mem_eraseFirst_of_ne m.ll k p.1 hne).2 hll
    · show (eraseFirst m.ll k).length = (mapErase m.kv k).length
      have e1 := length_eraseFirst m.ll k hmem
      have e2 := length_mapErase_of_isSome m.kv k hs
      have e3 := h.2.2.2.2
      omega
  · have hnone : mapLookup m.kv k = none := by
      cases hm : mapLookup m.kv k with
      | none => rfl
      | some w => rw [hm] at hs; simp at hs
    rw [Delete_eq_of_absent m k hnone] at hd
    simp only [Option.some.injEq, Prod.mk.injEq] at hd
    exact hd.1 ▸ h

theorem Inv_ReplaceKey {m : OrderedMap K V} (h : Inv m) (oldK newK : K)
    {m' : OrderedMap K V} {b : Bool}
    (hr : ReplaceKey m oldK newK = some (m', b)) : Inv m' := by
  by_cases hold : (mapLookup m.kv oldK).isSome = true
  · by_cases hnew : (mapLookup m.kv newK).isSome = true
    · rw [ReplaceKey_eq_of_fail m oldK newK (Or.inr hnew)] at hr
      simp only [Option.some.injEq, Prod.mk.injEq] at hr
      exact hr.1 ▸ h
    · obtain ⟨v, hv⟩ := Option.isSome_iff_exists.1 hold
      have hmem : oldK ∈ m.ll := (Inv.mem_ll_iff h oldK).2 hold
      have hnewB : (mapLookup m.kv newK).isSome = false := by
        cases hx : (mapLookup m.kv newK).isSome
        · rfl
        · exact absurd hx hnew
      rw [ReplaceKey_eq_of_success m oldK newK v hv hnewB hmem] at hr
      simp only [Option.some.injEq, Prod.mk.injEq] at hr
      obtain ⟨hm', -⟩ := hr
      subst hm'
      have hnewll : newK ∉ m.ll := fun hmm => by
        have h1 := h.2.2.1 newK hmm
        rw [hnewB] at h1
        simp at h1
      have hnewkeys : newK ∉ storeKeys m.kv := fun hmm => by
        have h1 := (mapLookup_isSome_iff m.kv newK).2 hmm
        rw [hnewB] at h1
        simp at h1
      have hnewkeysE : newK ∉ storeKeys (mapErase m.kv oldK) := fun hmm => by
        rw [storeKeys_erase] at hmm
        exact hnewkeys ((eraseFirst_sublist _ oldK).subset hmm)
      have hlookupE : mapLookup (mapErase m.kv oldK) newK = none :=
        mapLookup_eq_none_of_not_mem _ newK hnewkeysE
      refine ⟨replaceFirst_nodup m.ll oldK newK h.1 hnewll, ?_, ?_, ?_, ?_⟩
      · rw [storeKeys_insert, hlookupE]
        simp only [Option.isSome_none, Bool.false_eq_true, if_false]
        rw [List.nodup_append, storeKeys_erase]
        refine ⟨eraseFirst_nodup _ oldK h.2.1, List.nodup_singleton newK, ?_⟩
        intro a ha hb
        rw [List.mem_singleton.1 hb] at ha
        exact hnewkeys ((eraseFirst_sublist _ oldK).subset ha)
      · intro k' hk'
        rcases (mem_replaceFirst_iff m.ll oldK newK k' h.1 hmem hnewll).1 hk'
          with ⟨hll, hne⟩ | rfl
        · have hknew : k' ≠ newK := fun he => hnewll (he ▸ hll)
          rw [mapLookup_insert]
          simp only [if_neg (Ne.symm hknew)]
          rw [mapErase_lookup_ne m.kv oldK k' hne]
          exact h.2.2.1 k' hll
        · simp [mapLookup_insert]
      · intro p hp
        have hp1 : p.1 ∈ storeKeys (mapInsert (mapErase m.kv oldK) newK v) :=
          List.mem_map_of_mem Prod.fst hp
        rw [storeKeys_insert, hlookupE] at hp1
        simp only [Option.isSome_none, Bool.false_eq_true, if_false] at hp1
        rcases List.mem_append.1 hp1 with hp1 | hp1
        · rw [storeKeys_erase] at hp1
          have hne : p.1 ≠ oldK := fun he =>
            not_mem_eraseFirst_self _ oldK h.2.1 (he ▸ hp1)
          have hkeys : p.1 ∈ storeKeys m.kv :=
            (eraseFirst_sublist _ oldK).subset hp1
          obtain ⟨p', hp', he⟩ := List.mem_map.1 hkeys
          have hll : p.1 ∈ m.ll := he ▸ h.2.2.2.1 p' hp'
          exact (mem_replaceFirst_iff m.ll oldK newK p.1 h.1 hmem hnewll).2
            (Or.inl ⟨hll, hne⟩)
        · exact (mem_replaceFirst_iff m.ll oldK newK p.1 h.1 hmem hnewll).2
            (Or.inr (List.mem_singleton.1 hp1))
      · show (replaceFirst m.ll oldK newK).length =
          (mapInsert (mapErase m.kv oldK) newK v).length
        rw [length_mapInsert, hlookupE]
        simp only [Option.isSome_none, Bool.false_eq_true, if_false]
        rw [length_replaceFirst]
        have e2 := length_mapErase_of_isSome m.kv oldK hold
        have e3 := h.2.2.2.2
        omega
  · have hnone : mapLookup m.kv oldK = none := by
      cases hm : mapLookup m.kv oldK with
      | none => rfl
      | some w => rw [hm] at hold; simp at hold
    rw [ReplaceKey_eq_of_fail m oldK newK (Or.inl hnone)] at hr
    simp only [Option.some.injEq, Prod.mk.injEq] at hr
    exact hr.1 ▸ h

/-! ### Reachability and absence of panics -/

theorem Delete_isSome {m : OrderedMap K V} (h : Inv m) (k : K) :
    (Delete m k).isSome = true := by
  by_cases hs : (mapLookup m.kv k).isSome = true
  · rw [Delete_eq_of_present m k hs ((Inv.mem_ll_iff h k).2 hs)]
    rfl
  · have hnone : mapLookup m.kv k = none := by
      cases hm : mapLookup m.kv k with
      | none => rfl
      | some w => rw [hm] at hs; simp at hs
    rw [Delete_eq_of_absent m k hnone]
    rfl

theorem ReplaceKey_isSome {m : OrderedMap K V} (h : Inv m) (oldK newK : K) :
    (ReplaceKey m oldK newK).isSome = true := by
  by_cases hold : (mapLookup m.kv oldK).isSome = true
  · by_cases hnew : (mapLookup m.kv newK).isSome = true
    · rw [ReplaceKey_eq_of_fail m oldK newK (Or.inr hnew)]
      rfl
    · obtain ⟨v, hv⟩ := Option.isSome_iff_exists.1 hold
      have hnewB : (mapLookup m.kv newK).isSome = false := by
        cases hx : (mapLookup m.kv newK).isSome
        · rfl
        · exact absurd hx hnew
      rw [ReplaceKey_eq_of_success m oldK newK v hv hnewB
        ((Inv.mem_ll_iff h oldK).2 hold)]
      rfl
  · have hnone : mapLookup m.kv oldK = none := by
      cases hm : mapLookup m.kv oldK with
      | none => rfl
      | some w => rw [hm] at hold; simp at hold
    rw [ReplaceKey_eq_of_fail m oldK newK (Or.inl hnone)]
    rfl

theorem applyOp_total {m : OrderedMap K V} (h : Inv m) (op : Op K V) :
    ∃ m', applyOp m op = some m' ∧ Inv m' := by
  cases op with
  | set k v => exact ⟨(Set m k v).1, rfl, Inv_Set h k v⟩
  | del k =>
    obtain ⟨r, hr⟩ := Option.isSome_iff_exists.1 (Delete_isSome h k)
    exact ⟨r.1, by simp [applyOp, hr], Inv_Delete h k (by rw [hr])⟩
  | rep a c =>
    obtain ⟨r, hr⟩ := Option.isSome_iff_exists.1 (ReplaceKey_isSome h a c)
    exact ⟨r.1, by simp [applyOp, hr], Inv_ReplaceKey h a c (by rw [hr])⟩

theorem runOps_total {m : OrderedMap K V} (h : Inv m) (ops : List (Op K V)) :
    ∃ m', runOps m ops = some m' ∧ Inv m' := by
  induction ops generalizing m with
  | nil => exact ⟨m, rfl, h⟩
  | cons op rest ih =>
    obtain ⟨m1, h1, hinv1⟩ := applyOp_total h op
    obtain ⟨m2, h2, hinv2⟩ := ih hinv1
    exact ⟨m2, by simp [runOps, h1, h2], hinv2⟩

/-! ### Traversal lemmas -/

theorem pushLoop_append {α β : Type} (l : List α) (f : α → β) (acc : List β) :
    pushLoop l (fun s a => (s ++ [f a], true)) acc = acc ++ l.map f := by
  induction l generalizing acc with
  | nil => simp [pushLoop]
  | cons a rest ih => simp [pushLoop, ih]

theorem collectFront_eq (m : OrderedMap K V) :
    collectFront m = m.ll.map (fun k => (k, mapLookup m.kv k)) := by
  simpa [collectFront, AllFromFront] using
    pushLoop_append m.ll (fun k => (k, mapLookup m.kv k)) []

theorem collectBack_eq (m : OrderedMap K V) :
    collectBack m = (m.ll.map (fun k => (k, mapLookup m.kv k))).reverse := by
  have := pushLoop_append m.ll.reverse (fun k => (k, mapLookup m.kv k)) []
  simpa [collectBack, AllFromBack, List.map_reverse] using this

theorem collectAll_eq (m : OrderedMap K V) : collectAll m = collectFront m := rfl

theorem collectBack_eq_reverse (m : OrderedMap K V) :
    collectBack m = (collectFront m).reverse := by
  rw [collectFront_eq, collectBack_eq]

theorem pushLoop_count {α β : Type} (i : Nat) (f : α → β) (l : List α) :
    ∀ (acc : List β) (n : Nat), n < i →
    pushLoop l (fun s a => ((s.1 ++ [f a], s.2 + 1), decide (s.2 + 1 < i))) (acc, n)
      = (acc ++ (l.take (i - n)).map f, n + min (i - n) l.length) := by
  induction l with
  | nil => intro acc n _; simp [pushLoop]
  | cons a rest ih =>
    intro acc n hn
    by_cases hc : n + 1 < i
    · have h1 : i - n = (i - (n + 1)) + 1 := by omega
      rw [pushLoop]
      simp only [decide_eq_true_eq, hc, if_pos]
      rw [ih (acc ++ [f a]) (n + 1) hc, h1]
      simp only [List.take_succ_cons, List.map_cons, List.append_assoc,
        List.singleton_append, List.length_cons]
      have h2 : n + 1 + min (i - (n + 1)) rest.length
          = n + min (i - (n + 1) + 1) (rest.length + 1) := by omega
      rw [h2]
    · have h1 : i - n = 1 := by omega
      rw [pushLoop]
      simp only [decide_eq_true_eq, hc, if_neg, if_false]
      rw [h1]
      simp only [List.take_succ_cons, List.take_zero, List.map_cons,
        List.map_nil, List.length_cons]
      have h2 : n + min 1 (rest.length + 1) = n + 1 := by omega
      rw [h2]

theorem runTrace_prefix {α σ : Type} (yield : σ → α → σ × Bool) (l : List α) :
    ∀ s : σ, (runTrace yield l s).map Prod.fst
      = l.take (runTrace yield l s).length := by
  induction l with
  | nil => intro s; rfl
  | cons a rest ih =>
    intro s
    cases hr : (yield s a).2 with
    | true =>
      simp only [runTrace, hr, if_true, List.map_cons, List.length_cons,
        List.take_succ_cons]
      rw [ih (yield s a).1]
    | false =>
      simp [runTrace, hr]

theorem runTrace_fold {α σ : Type} (yield : σ → α → σ × Bool) (l : List α) :
    ∀ s : σ, pushLoop l yield s
      = ((runTrace yield l s).map Prod.fst).foldl (fun st a => (yield st a).1) s := by
  induction l with
  | nil => intro s; rfl
  | cons a rest ih =>
    intro s
    cases hr : (yield s a).2 with
    | true =>
      simp only [pushLoop, runTrace, hr, if_true, List.map_cons, List.foldl_cons]
      exact ih (yield s a).1
    | false =>
      simp [pushLoop, runTrace, hr]

theorem runTrace_stop {α σ : Type} (yield : σ → α → σ × Bool) (l : List α) :
    ∀ (s : σ) (i : Nat) (p : α × Bool),
      (runTrace yield l s)[i]? = some p → p.2 = false →
      (runTrace yield l s).length = i + 1 := by
  induction l with
  | nil => intro s i p hget _; simp [runTrace] at hget
  | cons a rest ih =>
    intro s i p hget hfalse
    cases hr : (yield s a).2 with
    | true =>
      simp only [runTrace, hr, if_true] at hget ⊢
      cases i with
      | zero =>
        simp only [List.getElem?_cons_zero, Option.some.injEq] at hget
        rw [← hget] at hfalse
        simp at hfalse
      | succ j =>
        simp only [List.getElem?_cons_succ] at hget
        simp only [List.length_cons]
        rw [ih (yield s a).1 j p hget hfalse]
    | false =>
      simp only [runTrace, hr, if_false] at hget ⊢
      cases i with
      | zero => simp
      | succ j => simp at hget

theorem runTrace_length_le {α σ : Type} (yield : σ → α → σ × Bool) (l : List α) :
    ∀ s : σ, (runTrace yield l s).length ≤ l.length := by
  induction l with
  | nil => intro s; simp [runTrace]
  | cons a rest ih =>
    intro s
    cases hr : (yield s a).2 with
    | true =>
      simp only [runTrace, hr, if_true, List.length_cons]
      exact Nat.succ_le_succ (ih (yield s a).1)
    | false =>
      simp [runTrace, hr]

/-! ### Bulk insertion and `Copy` -/

theorem setPairs_cons (m : OrderedMap K V) (p : K × V) (rest : List (K × V)) :
    setPairs m (p :: rest) = setPairs (Set m p.1 p.2).1 rest := rfl

theorem setPairs_spec (ps : List (K × V)) :
    ∀ (m : OrderedMap K V), (ps.map Prod.fst).Nodup →
      (∀ p ∈ ps, mapLookup m.kv p.1 = none) →
      (setPairs m ps).ll = m.ll ++ ps.map Prod.fst ∧
      (∀ k, mapLookup (setPairs m ps).kv k =
        (match ps.find? (fun p => decide (p.1 = k)) with
         | some p => some p.2
         | none => mapLookup m.kv k)) := by
  induction ps with
  | nil => intro m _ _; simp [setPairs]
  | cons p rest ih =>
    intro m hnd habs
    obtain ⟨k0, v0⟩ := p
    simp only [List.map_cons, List.nodup_cons] at hnd
    have h0 : mapLookup m.kv k0 = none := habs (k0, v0) (List.mem_cons_self _ _)
    have hm1 : (Set m k0 v0).1 = ⟨mapInsert m.kv k0 v0, m.ll ++ [k0]⟩ := by
      rw [Set_eq_of_absent m k0 v0 h0]
    have habs1 : ∀ q ∈ rest, mapLookup (Set m k0 v0).1.kv q.1 = none := by
      intro q hq
      rw [hm1]
      show mapLookup (mapInsert m.kv k0 v0) q.1 = none
      rw [mapLookup_insert]
      have hne : k0 ≠ q.1 := fun he => hnd.1 (he ▸ List.mem_map_of_mem Prod.fst hq)
      rw [if_neg hne]
      exact habs q (List.mem_cons_of_mem _ hq)
    obtain ⟨ihll, ihlk⟩ := ih (Set m k0 v0).1 hnd.2 habs1
    constructor
    · show (setPairs (Set m k0 v0).1 rest).ll = m.ll ++ k0 :: rest.map Prod.fst
      rw [ihll, hm1]
      simp
    · intro k
      show mapLookup (setPairs (Set m k0 v0).1 rest).kv k = _
      rw [ihlk k]
      by_cases hk : k0 = k
      · subst hk
        have hfr : rest.find? (fun p => decide (p.1 = k0)) = none := by
          rw [List.find?_eq_none]
          intro x hx
          simp only [decide_eq_true_eq]
          exact fun he => hnd.1 (he ▸ List.mem_map_of_mem Prod.fst hx)
        rw [hfr, List.find?_cons_of_pos rest (by simp)]
        rw [hm1]
        show mapLookup (mapInsert m.kv k0 v0) k0 = some v0
        rw [mapLookup_insert, if_pos rfl]
      · rw [List.find?_cons_of_neg rest (by simp [hk])]
        cases hfr : rest.find? (fun p => decide (p.1 = k)) with
        | some q => simp
        | none =>
          simp only []
          rw [hm1]
          show mapLookup (mapInsert m.kv k0 v0) k = mapLookup m.kv k
          rw [mapLookup_insert, if_neg hk]

theorem find?_map_pairs (ll : List K) (g : K → V) (k : K) :
    (ll.map (fun x => (x, g x))).find? (fun p => decide (p.1 = k))
      = if k ∈ ll then some (k, g k) else none := by
  induction ll with
  | nil => simp
  | cons x rest ih =>
    by_cases hx : x = k
    · subst hx
      simp only [List.map_cons]
      rw [List.find?_cons_of_pos _ (by simp)]
      simp
    · simp only [List.map_cons]
      rw [List.find?_cons_of_neg _ (by simp [hx])]
      simp [ih, Ne.symm hx]

theorem Copy_spec [Inhabited V] {m : OrderedMap K V} (h : Inv m) :
    (Copy m).ll = m.ll ∧ ∀ k, mapLookup (Copy m).kv k = mapLookup m.kv k := by
  have hkeys : (m.ll.map (fun key => (key, (mapLookup m.kv key).getD default))).map
      Prod.fst = m.ll := by
    rw [List.map_map]
    exact List.map_id' m.ll
  have hnd : ((m.ll.map (fun key => (key, (mapLookup m.kv key).getD default))).map
      Prod.fst).Nodup := by rw [hkeys]; exact h.1
  have habs : ∀ p ∈ m.ll.map (fun key => (key, (mapLookup m.kv key).getD default)),
      mapLookup (MakeOrderedMap : OrderedMap K V).kv p.1 = none := fun p _ => rfl
  obtain ⟨hll, hlk⟩ := setPairs_spec _ MakeOrderedMap hnd habs
  constructor
  · show (setPairs MakeOrderedMap _).ll = m.ll
    rw [hll, hkeys]
    rfl
  · intro k
    show mapLookup (setPairs MakeOrderedMap _).kv k = mapLookup m.kv k
    rw [hlk k, find?_map_pairs m.ll (fun key => (mapLookup m.kv key).getD default) k]
    by_cases hmem : k ∈ m.ll
    · rw [if_pos hmem]
      obtain ⟨v, hv⟩ := Option.isSome_iff_exists.1 (h.2.2.1 k hmem)
      simp [hv]
    · rw [if_neg hmem, Inv.lookup_none_of_not_mem_ll h k hmem]
      rfl

/-! ### Heap lemmas for `Copy` independence -/

theorem readH_alloc_new (h : MapHeap K V) (m : OrderedMap K V) :
    readH (alloc h m).1 (alloc h m).2 = m := by
  show ((h.cells ++ [m])[h.cells.length]?).getD MakeOrderedMap = m
  rw [List.getElem?_concat_length]
  rfl

theorem readH_alloc_old (h : MapHeap K V) (m : OrderedMap K V) (r : Nat)
    (hr : r < h.cells.length) : readH (alloc h m).1 r = readH h r := by
  show ((h.cells ++ [m])[r]?).getD MakeOrderedMap = (h.cells[r]?).getD MakeOrderedMap
  rw [List.getElem?_append_left hr]

theorem readH_set_ne (h : MapHeap K V) (cell : OrderedMap K V) (r r' : Nat)
    (hne : r ≠ r') :
    readH ⟨h.cells.set r cell⟩ r' = readH h r' := by
  show ((h.cells.set r cell)[r']?).getD MakeOrderedMap = (h.cells[r']?).getD MakeOrderedMap
  rw [List.getElem?_set_ne hne]

/-! ### Further operation lemmas -/

theorem Get_Set_self (m : OrderedMap K V) (k : K) (v : V) :
    Get (Set m k v).1 k = some v := by
  by_cases hs : (mapLookup m.kv k).isSome = true
  · rw [Set_eq_of_present m k v hs]
    show mapLookup (mapInsert m.kv k v) k = some v
    rw [mapLookup_insert, if_pos rfl]
  · have hnone : mapLookup m.kv k = none := by
      cases hm : mapLookup m.kv k with
      | none => rfl
      | some w => rw [hm] at hs; simp at hs
    rw [Set_eq_of_absent m k v hnone]
    show mapLookup (mapInsert m.kv k v) k = some v
    rw [mapLookup_insert, if_pos rfl]

theorem Get_Set_ne (m : OrderedMap K V) (k q : K) (v : V) (h : q ≠ k) :
    Get (Set m k v).1 q = Get m q := by
  by_cases hs : (mapLookup m.kv k).isSome = true
  · rw [Set_eq_of_present m k v hs]
    show mapLookup (mapInsert m.kv k v) q = mapLookup m.kv q
    rw [mapLookup_insert, if_neg (fun he => h he.symm)]
  · have hnone : mapLookup m.kv k = none := by
      cases hm : mapLookup m.kv k with
      | none => rfl
      | some w => rw [hm] at hs; simp at hs
    rw [Set_eq_of_absent m k v hnone]
    show mapLookup (mapInsert m.kv k v) q = mapLookup m.kv q
    rw [mapLookup_insert, if_neg (fun he => h he.symm)]

theorem find?_self_of_nodup (ps : List (K × V)) (hnd : (ps.map Prod.fst).Nodup)
    (p : K × V) (hp : p ∈ ps) :
    ps.find? (fun q => decide (q.1 = p.1)) = some p := by
  induction ps with
  | nil => simp at hp
  | cons q rest ih =>
    simp only [List.map_cons, List.nodup_cons] at hnd
    rcases List.mem_cons.1 hp with rfl | hp'
    · exact List.find?_cons_of_pos rest (by simp)
    · have hne : ¬(q.1 = p.1) := fun he =>
        hnd.1 (he ▸ List.mem_map_of_mem Prod.fst hp')
      rw [List.find?_cons_of_neg rest (by simp [hne])]
      exact ih hnd.2 hp'

theorem hSet_readH_other (H : MapHeap K V) (r r' : Nat) (k : K) (v : V)
    (hne : r ≠ r') : readH (hSet H r k v).1 r' = readH H r' := by
  show readH ⟨H.cells.set r (Set (readH H r) k v).1⟩ r' = readH H r'
  exact readH_set_ne H _ r r' hne

theorem hDelete_readH_other (H : MapHeap K V) (r r' : Nat) (k : K)
    (hne : r ≠ r') (res : MapHeap K V × Bool) (hd : hDelete H r k = some res) :
    readH res.1 r' = readH H r' := by
  unfold hDelete at hd
  obtain ⟨d, -, hd2⟩ := Option.map_eq_some'.1 hd
  subst hd2
  show readH ⟨H.cells.set r d.1⟩ r' = readH H r'
  exact readH_set_ne H d.1 r r' hne

theorem hReplaceKey_readH_other (H : MapHeap K V) (r r' : Nat) (a b : K)
    (hne : r ≠ r') (res : MapHeap K V × Bool)
    (hd : hReplaceKey H r a b = some res) : readH res.1 r' = readH H r' := by
  unfold hReplaceKey at hd
  obtain ⟨d, -, hd2⟩ := Option.map_eq_some'.1 hd
  subst hd2
  show readH ⟨H.cells.set r d.1⟩ r' = readH H r'
  exact readH_set_ne H d.1 r r' hne

/-! ### The claims -/

/-- C1: every map reachable from the empty map by a sequence of `Set`,
`Delete` and `ReplaceKey` operations satisfies the bijection invariant:
the run succeeds, the keys of the order sequence are exactly the keys
present in the store, with no duplicates, and the length of the order
sequence equals the store size, which is the value of `Len`. -/
theorem C1_reachable_bijection (ops : List (Op K V)) :
    ∃ m, runOps (MakeOrderedMap : OrderedMap K V) ops = some m ∧
      m.ll.Nodup ∧
      (∀ k, k ∈ m.ll ↔ Has m k = true) ∧
      m.ll.length = m.kv.length ∧
      Len m = m.ll.length := by
  obtain ⟨m, hrun, hinv⟩ := runOps_total Inv_Make ops
  exact ⟨m, hrun, hinv.1, fun k => Inv.mem_ll_iff hinv k, hinv.2.2.2.2, rfl⟩

/-- C2: `Set` of a new key inserts it into the store, appends it to the
order sequence and returns `true`; `Set` of an existing key overwrites the
value, leaves the order (and hence the keys yielded by front traversal)
unchanged, and returns `false` regardless of the value. -/
theorem C2_set_semantics (m : OrderedMap K V) (k : K) (v : V) :
    (Has m k = false →
      (Set m k v).2 = true ∧
      (Set m k v).1.ll = m.ll ++ [k] ∧
      Get (Set m k v).1 k = some v ∧
      (∀ q, q ≠ k → Get (Set m k v).1 q = Get m q)) ∧
    (Has m k = true →
      (Set m k v).2 = false ∧
      (Set m k v).1.ll = m.ll ∧
      (collectFront (Set m k v).1).map Prod.fst = (collectFront m).map Prod.fst ∧
      Get (Set m k v).1 k = some v ∧
      (∀ q, q ≠ k → Get (Set m k v).1 q = Get m q)) := by
  constructor
  · intro h
    have hnone : mapLookup m.kv k = none := by
      cases hm : mapLookup m.kv k with
      | none => rfl
      | some w =>
        have h' : (mapLookup m.kv k).isSome = false := h
        rw [hm] at h'
        simp at h'
    refine ⟨?_, ?_, Get_Set_self m k v, fun q hq => Get_Set_ne m k q v hq⟩
    · rw [Set_eq_of_absent m k v hnone]
    · rw [Set_eq_of_absent m k v hnone]
  · intro h
    have hs : (mapLookup m.kv k).isSome = true := h
    refine ⟨?_, ?_, ?_, Get_Set_self m k v, fun q hq => Get_Set_ne m k q v hq⟩
    · rw [Set_eq_of_present m k v hs]
    · rw [Set_eq_of_present m k v hs]
    · rw [Set_eq_of_present m k v hs, collectFront_eq, collectFront_eq]
      simp [List.map_map, Function.comp]

/-- Witness for C2: both branches at concrete inputs. -/
theorem C2_set_semantics_witness :
    (Set (MakeOrderedMap : OrderedMap Nat Nat) 0 1).2 = true ∧
    (Set (Set (MakeOrderedMap : OrderedMap Nat Nat) 0 1).1 0 2).2 = false :=
  ⟨((C2_set_semantics (MakeOrderedMap : OrderedMap Nat Nat) 0 1).1 (by decide)).1,
   ((C2_set_semantics (Set (MakeOrderedMap : OrderedMap Nat Nat) 0 1).1 0 2).2
     (by decide)).1⟩

/-- C3: `ReplaceKey` with a missing old key or an already-present new key
returns `false` and leaves the map unchanged. -/
theorem C3_replacekey_rejection (m : OrderedMap K V) (oldK newK : K)
    (h : Has m oldK = false ∨ Has m newK = true) :
    ReplaceKey m oldK newK = some (m, false) := by
  rcases h with h | h
  · refine ReplaceKey_eq_of_fail m oldK newK (Or.inl ?_)
    cases hm : mapLookup m.kv oldK with
    | none => rfl
    | some w =>
      have h' : (mapLookup m.kv oldK).isSome = false := h
      rw [hm] at h'
      simp at h'
  · exact ReplaceKey_eq_of_fail m oldK newK (Or.inr h)

/-- Witness for C3 at a concrete input. -/
theorem C3_replacekey_rejection_witness :
    ReplaceKey (MakeOrderedMap : OrderedMap Nat Nat) 0 1
      = some (MakeOrderedMap, false) :=
  C3_replacekey_rejection (MakeOrderedMap : OrderedMap Nat Nat) 0 1
    (Or.inl (by decide))

/-- C4: on a map containing `oldK` and not `newK`, `ReplaceKey` returns
`true`; afterwards `oldK` is absent, `newK` holds the old value at the old
position of `oldK` in the order, and all other entries are unchanged. -/
theorem C4_replacekey_success (m : OrderedMap K V) (oldK newK : K)
    (hinv : Inv m) (hold : Has m oldK = true) (hnew : Has m newK = false) :
    ∃ m', ReplaceKey m oldK newK = some (m', true) ∧
      Has m' oldK = false ∧
      Get m' newK = Get m oldK ∧
      m'.ll = m.ll.map (fun x => if x = oldK then newK else x) ∧
      (∀ q, q ≠ oldK → q ≠ newK → Get m' q = Get m q) := by
  have hold' : (mapLookup m.kv oldK).isSome = true := hold
  have hnewB : (mapLookup m.kv newK).isSome = false := hnew
  obtain ⟨v, hv⟩ := Option.isSome_iff_exists.1 hold'
  have hmem : oldK ∈ m.ll := (Inv.mem_ll_iff hinv oldK).2 hold'
  refine ⟨_, ReplaceKey_eq_of_success m oldK newK v hv hnewB hmem, ?_, ?_, ?_, ?_⟩
  · show (mapLookup (mapInsert (mapErase m.kv oldK) newK v) oldK).isSome = false
    have hne : newK ≠ oldK := fun he => by
      rw [he, hv] at hnewB
      simp at hnewB
    rw [mapLookup_insert, if_neg hne, mapErase_lookup_self m.kv oldK hinv.2.1]
    rfl
  · show mapLookup (mapInsert (mapErase m.kv oldK) newK v) newK = mapLookup m.kv oldK
    rw [mapLookup_insert, if_pos rfl, hv]
  · show replaceFirst m.ll oldK newK = _
    exact replaceFirst_eq_map m.ll oldK newK hinv.1
  · intro q hqo hqn
    show mapLookup (mapInsert (mapErase m.kv oldK) newK v) q = mapLookup m.kv q
    rw [mapLookup_insert, if_neg (fun he => hqn he.symm),
      mapErase_lookup_ne m.kv oldK q hqo]

/-- Witness for C4 at a concrete input. -/
theorem C4_replacekey_success_witness :
    Inv sampleMap ∧ Has sampleMap 0 = true ∧ Has sampleMap 2 = false ∧
    ∃ m', ReplaceKey sampleMap 0 2 = some (m', true) ∧
      Has m' 0 = false ∧
      Get m' 2 = Get sampleMap 0 ∧
      m'.ll = sampleMap.ll.map (fun x => if x = 0 then 2 else x) ∧
      (∀ q, q ≠ 0 → q ≠ 2 → Get m' q = Get sampleMap q) :=
  ⟨by decide, by decide, by decide,
   C4_replacekey_success sampleMap 0 2 (by decide) (by decide) (by decide)⟩

/-- C5: `Delete` of a present key returns `true`, removes it from the store
and from both traversal directions while keeping the other entries in their
relative order; `Delete` of an absent key returns `false` and changes
nothing. -/
theorem C5_delete_semantics (m : OrderedMap K V) (k : K) (hinv : Inv m) :
    (Has m k = true → ∃ m', Delete m k = some (m', true) ∧
      Has m' k = false ∧
      m'.ll = m.ll.filter (fun x => !decide (x = k)) ∧
      (∀ p ∈ collectFront m', p.1 ≠ k) ∧
      (∀ p ∈ collectBack m', p.1 ≠ k) ∧
      (∀ q, q ≠ k → Get m' q = Get m q)) ∧
    (Has m k = false → Delete m k = some (m, false)) := by
  constructor
  · intro h
    have hs : (mapLookup m.kv k).isSome = true := h
    have hmem : k ∈ m.ll := (Inv.mem_ll_iff hinv k).2 hs
    refine ⟨_, Delete_eq_of_present m k hs hmem, ?_, ?_, ?_, ?_, ?_⟩
    · show (mapLookup (mapErase m.kv k) k).isSome = false
      rw [mapErase_lookup_self m.kv k hinv.2.1]
      rfl
    · show eraseFirst m.ll k = _
      exact eraseFirst_eq_filter m.ll k hinv.1
    · intro p hp
      rw [collectFront_eq] at hp
      obtain ⟨x, hx, he⟩ := List.mem_map.1 hp
      have hpx : p.1 = x := by rw [← he]
      rw [hpx]
      intro hxk
      exact not_mem_eraseFirst_self m.ll k hinv.1 (hxk ▸ hx)
    · intro p hp
      rw [collectBack_eq, List.mem_reverse] at hp
      obtain ⟨x, hx, he⟩ := List.mem_map.1 hp
      have hpx : p.1 = x := by rw [← he]
      rw [hpx]
      intro hxk
      exact not_mem_eraseFirst_self m.ll k hinv.1 (hxk ▸ hx)
    · intro q hq
      show mapLookup (mapErase m.kv k) q = mapLookup m.kv q
      exact mapErase_lookup_ne m.kv k q hq
  · intro h
    have hnone : mapLookup m.kv k = none := by
      cases hm : mapLookup m.kv k with
      | none => rfl
      | some w =>
        have h' : (mapLookup m.kv k).isSome = false := h
        rw [hm] at h'
        simp at h'
    exact Delete_eq_of_absent m k hnone

/-- Witness for C5: both branches at concrete inputs. -/
theorem C5_delete_semantics_witness :
    Delete sampleMap 5 = some (sampleMap, false) ∧
    ∃ m', Delete sampleMap 0 = some (m', true) ∧
      Has m' 0 = false ∧
      m'.ll = sampleMap.ll.filter (fun x => !decide (x = 0)) ∧
      (∀ p ∈ collectFront m', p.1 ≠ 0) ∧
      (∀ p ∈ collectBack m', p.1 ≠ 0) ∧
      (∀ q, q ≠ 0 → Get m' q = Get sampleMap q) :=
  ⟨(C5_delete_semantics sampleMap 5 (by decide)).2 (by decide),
   (C5_delete_semantics sampleMap 0 (by decide)).1 (by decide)⟩

/-- C6: inserting pairwise-distinct keys into an empty map and traversing
front-to-back (`AllFromFront`, `All`) yields exactly those pairs in
insertion order, back-to-front (`AllFromBack`) yields them reversed; and in
general `AllFromBack` yields the reverse of `AllFromFront`. -/
theorem C6_traversal_order :
    (∀ (ps : List (K × V)), (ps.map Prod.fst).Nodup →
      collectFront (setPairs (MakeOrderedMap : OrderedMap K V) ps)
          = ps.map (fun p => (p.1, some p.2)) ∧
      collectAll (setPairs (MakeOrderedMap : OrderedMap K V) ps)
          = ps.map (fun p => (p.1, some p.2)) ∧
      collectBack (setPairs (MakeOrderedMap : OrderedMap K V) ps)
          = (ps.map (fun p => (p.1, some p.2))).reverse) ∧
    (∀ (m : OrderedMap K V), collectBack m = (collectFront m).reverse) := by
  constructor
  · intro ps hnd
    have habs : ∀ p ∈ ps,
        mapLookup (MakeOrderedMap : OrderedMap K V).kv p.1 = none :=
      fun p _ => rfl
    obtain ⟨hll, hlk⟩ := setPairs_spec ps MakeOrderedMap hnd habs
    have hfront : collectFront (setPairs (MakeOrderedMap : OrderedMap K V) ps)
        = ps.map (fun p => (p.1, some p.2)) := by
      rw [collectFront_eq, hll]
      show (([] : List K) ++ ps.map Prod.fst).map _ = _
      rw [List.nil_append, List.map_map]
      refine List.map_congr_left ?_
      intro p hp
      show (p.1, mapLookup (setPairs MakeOrderedMap ps).kv p.1) = (p.1, some p.2)
      rw [hlk p.1, find?_self_of_nodup ps hnd p hp]
    exact ⟨hfront, hfront, by rw [collectBack_eq_reverse, hfront]⟩
  · exact collectBack_eq_reverse

/-- Witness for C6 at a concrete input. -/
theorem C6_traversal_order_witness :
    collectFront (setPairs (MakeOrderedMap : OrderedMap Nat Nat) [(1, 10), (2, 20)])
      = [(1, some 10), (2, some 20)] :=
  (C6_traversal_order.1 [(1, 10), (2, 20)] (by decide)).1

/-- C7: `Copy` through a handle produces a map with the same pairs and
order in a fresh cell; mutating the copy (`Set`/`Delete`) leaves the source
cell unchanged and vice versa. -/
theorem C7_copy_independence [Inhabited V] (h : MapHeap K V) (r : Nat)
    (hr : r < h.cells.length) (hinv : Inv (readH h r)) :
    (readH (hCopy h r).1 (hCopy h r).2).ll = (readH h r).ll ∧
    (∀ k, Get (readH (hCopy h r).1 (hCopy h r).2) k = Get (readH h r) k) ∧
    (hCopy h r).2 ≠ r ∧
    (∀ k v, readH (hSet (hCopy h r).1 (hCopy h r).2 k v).1 r = readH h r) ∧
    (∀ k v, readH (hSet (hCopy h r).1 r k v).1 (hCopy h r).2
        = readH (hCopy h r).1 (hCopy h r).2) ∧
    (∀ k res, hDelete (hCopy h r).1 (hCopy h r).2 k = some res →
        readH res.1 r = readH h r) ∧
    (∀ k res, hDelete (hCopy h r).1 r k = some res →
        readH res.1 (hCopy h r).2 = readH (hCopy h r).1 (hCopy h r).2) ∧
    (∀ a b res, hReplaceKey (hCopy h r).1 (hCopy h r).2 a b = some res →
        readH res.1 r = readH h r) ∧
    (∀ a b res, hReplaceKey (hCopy h r).1 r a b = some res →
        readH res.1 (hCopy h r).2 = readH (hCopy h r).1 (hCopy h r).2) := by
  have hread : readH (hCopy h r).1 (hCopy h r).2 = Copy (readH h r) :=
    readH_alloc_new h (Copy (readH h r))
  have hcs := Copy_spec hinv
  have hlen : (hCopy h r).2 = h.cells.length := rfl
  have hner : (hCopy h r).2 ≠ r := by rw [hlen]; omega
  have hrne : r ≠ (hCopy h r).2 := by rw [hlen]; omega
  have hold : readH (hCopy h r).1 r = readH h r :=
    readH_alloc_old h (Copy (readH h r)) r hr
  refine ⟨?_, ?_, hner, ?_, ?_, ?_, ?_, ?_, ?_⟩
  · rw [hread]
    exact hcs.1
  · intro k
    rw [hread]
    exact hcs.2 k
  · intro k v
    rw [hSet_readH_other (hCopy h r).1 (hCopy h r).2 r k v hner]
    exact hold
  · intro k v
    exact hSet_readH_other (hCopy h r).1 r (hCopy h r).2 k v hrne
  · intro k res hd
    rw [hDelete_readH_other (hCopy h r).1 (hCopy h r).2 r k hner res hd]
    exact hold
  · intro k res hd
    exact hDelete_readH_other (hCopy h r).1 r (hCopy h r).2 k hrne res hd
  · intro a b res hd
    rw [hReplaceKey_readH_other (hCopy h r).1 (hCopy h r).2 r a b hner res hd]
    exact hold
  · intro a b res hd
    exact hReplaceKey_readH_other (hCopy h r).1 r (hCopy h r).2 a b hrne res hd

/-- Witness for C7 at a concrete one-cell heap. -/
theorem C7_copy_independence_witness :
    (0 < heapSample.cells.length ∧ Inv (readH heapSample 0)) ∧
    (hCopy heapSample 0).2 ≠ 0 :=
  ⟨⟨by decide, by decide⟩,
   (C7_copy_independence heapSample 0 (by decide) (by decide)).2.2.1⟩

/-- C8: for every map and every consumer (arbitrary state type `σ` and
yield function) of `AllFromFront`, `All`, `AllFromBack`, `Keys` or
`Values`: the trace records one entry per invocation of the consumer; if
the consumer signals stop at its `(i+1)`-st invocation the trace has
exactly `i+1` entries, the elements handed to the consumer are exactly an
initial prefix of the traversal (nothing after the stopping point is
evaluated or yielded), and the iterator's entire run equals folding the
consumer over just those elements (no further side effects after
stopping). -/
theorem C8_early_termination {σ : Type} (m : OrderedMap K V)
    (yield : σ → K → Option V → σ × Bool) (yk : σ → K → σ × Bool)
    (yv : σ → Option V → σ × Bool) (s : σ) :
    (∀ i p, (runTrace (frontYield m yield) m.ll s)[i]? = some p →
        p.2 = false → (runTrace (frontYield m yield) m.ll s).length = i + 1) ∧
    ((runTrace (frontYield m yield) m.ll s).map Prod.fst
        = m.ll.take (runTrace (frontYield m yield) m.ll s).length) ∧
    (AllFromFront m yield s
        = ((runTrace (frontYield m yield) m.ll s).map Prod.fst).foldl
            (fun st k => (yield st k (mapLookup m.kv k)).1) s) ∧
    (All m yield s = AllFromFront m yield s) ∧
    (∀ i p, (runTrace (frontYield m yield) m.ll.reverse s)[i]? = some p →
        p.2 = false →
        (runTrace (frontYield m yield) m.ll.reverse s).length = i + 1) ∧
    ((runTrace (frontYield m yield) m.ll.reverse s).map Prod.fst
        = m.ll.reverse.take (runTrace (frontYield m yield) m.ll.reverse s).length) ∧
    (AllFromBack m yield s
        = ((runTrace (frontYield m yield) m.ll.reverse s).map Prod.fst).foldl
            (fun st k => (yield st k (mapLookup m.kv k)).1) s) ∧
    (∀ i p, (runTrace yk m.ll s)[i]? = some p → p.2 = false →
        (runTrace yk m.ll s).length = i + 1) ∧
    ((runTrace yk m.ll s).map Prod.fst = m.ll.take (runTrace yk m.ll s).length) ∧
    (Keys m yk s
        = ((runTrace yk m.ll s).map Prod.fst).foldl (fun st k => (yk st k).1) s) ∧
    (∀ i p, (runTrace (valuesYield m yv) m.ll s)[i]? = some p → p.2 = false →
        (runTrace (valuesYield m yv) m.ll s).length = i + 1) ∧
    ((runTrace (valuesYield m yv) m.ll s).map Prod.fst
        = m.ll.take (runTrace (valuesYield m yv) m.ll s).length) ∧
    (Values m yv s
        = ((runTrace (valuesYield m yv) m.ll s).map Prod.fst).foldl
            (fun st k => (yv st (mapLookup m.kv k)).1) s) :=
  ⟨runTrace_stop (frontYield m yield) m.ll s,
   runTrace_prefix (frontYield m yield) m.ll s,
   runTrace_fold (frontYield m yield) m.ll s,
   rfl,
   runTrace_stop (frontYield m yield) m.ll.reverse s,
   runTrace_prefix (frontYield m yield) m.ll.reverse s,
   runTrace_fold (frontYield m yield) m.ll.reverse s,
   runTrace_stop yk m.ll s,
   runTrace_prefix yk m.ll s,
   runTrace_fold yk m.ll s,
   runTrace_stop (valuesYield m yv) m.ll s,
   runTrace_prefix (valuesYield m yv) m.ll s,
   runTrace_fold (valuesYield m yv) m.ll s⟩

/-- Witness for C8: a concrete consumer on `sampleMap` that signals stop at
its first invocation; the theorem concludes it is invoked exactly once. -/
theorem C8_early_termination_witness :
    (runTrace (frontYield sampleMap (countTake2 1)) sampleMap.ll ([], 0))[0]?
        = some (0, false) ∧
    (runTrace (frontYield sampleMap (countTake2 1)) sampleMap.ll ([], 0)).length
        = 0 + 1 :=
  ⟨by decide,
   (C8_early_termination sampleMap (countTake2 1)
       (fun st _ => (st, true)) (fun st _ => (st, true)) ([], 0)).1
     0 (0, false) (by decide) (by decide)⟩

/-- C9: `AppendMultiMap` stores, under `key`, the previous sequence with
`value` appended (the one-element sequence if the key was absent) and
returns the resulting map; two appends on an empty multimap accumulate in
order. -/
theorem C9_append_multimap (m : OrderedMap K (List V)) (k : K) (v : V) :
    Get (AppendMultiMap m k v) k
      = some (match Get m k with
              | some a => a ++ [v]
              | none => [v]) ∧
    Get (AppendMultiMap
          (AppendMultiMap (MakeOrderedMap : OrderedMap Nat (List Nat)) 0 1) 0 2) 0
      = some [1, 2] := by
  constructor
  · cases hg : Get m k with
    | some a =>
      simp only [AppendMultiMap, hg]
      exact Get_Set_self m k (a ++ [v])
    | none =>
      simp only [AppendMultiMap, hg]
      exact Get_Set_self m k [v]
  · decide

/-- C10: on a map satisfying the invariant, the linear scans of
`ReplaceKey` and `Delete` always find the sought present key at an
in-bounds index, and neither operation reaches the panicking path
(modelled by `none`). -/
theorem C10_no_panic (m : OrderedMap K V) (oldK newK k : K) (hinv : Inv m) :
    (Has m oldK = true →
      ∃ i, indexOfKey m.ll oldK = some i ∧ i < m.ll.length) ∧
    (ReplaceKey m oldK newK).isSome = true ∧
    (Has m k = true →
      ∃ i, indexOfKey m.ll k = some i ∧ i < m.ll.length) ∧
    (Delete m k).isSome = true := by
  refine ⟨?_, ReplaceKey_isSome hinv oldK newK, ?_, Delete_isSome hinv k⟩
  · intro h
    have hmem : oldK ∈ m.ll := (Inv.mem_ll_iff hinv oldK).2 h
    obtain ⟨i, hi⟩ :=
      Option.isSome_iff_exists.1 ((indexOfKey_isSome_iff m.ll oldK).2 hmem)
    exact ⟨i, hi, indexOfKey_lt m.ll oldK i hi⟩
  · intro h
    have hmem : k ∈ m.ll := (Inv.mem_ll_iff hinv k).2 h
    obtain ⟨i, hi⟩ :=
      Option.isSome_iff_exists.1 ((indexOfKey_isSome_iff m.ll k).2 hmem)
    exact ⟨i, hi, indexOfKey_lt m.ll k i hi⟩

/-- Witness for C10 at a concrete input. -/
theorem C10_no_panic_witness :
    Inv sampleMap ∧ (ReplaceKey sampleMap 0 7).isSome = true ∧
    (Delete sampleMap 1).isSome = true := by
  have hx := C10_no_panic sampleMap 0 7 1 (by decide)
  exact ⟨by decide, hx.2.1, hx.2.2.2⟩

end orderedmap
